import Mathlib

/-!
Verification development for the block-Gibbs pulsar-timing sampler
(`pulsar_gibbs.py`, class `PulsarBlockGibbs`).

The Python source is shallowly embedded below.  Parameter vectors and
latent-coefficient vectors are modelled as `List ℚ` (for the outer
sampling loop, whose claims are structural) or `List ℝ` (for the block
samplers, whose claims involve logarithms and exponentials).  All calls
into `numpy.random` / the external `acor` estimator / the external pta
noise model are modelled as explicit oracle arguments: a random draw is
an input, everything downstream of it is embedded literally from the
source.
-/

/-- Character-list prefix test: `startsWithChars needle hay` is true when
`needle` is an initial segment of `hay`.  Building block for Python's
substring containment operator `in`. -/
def startsWithChars : List Char → List Char → Bool
  | [], _ => true
  | _ :: _, [] => false
  | a :: as, b :: bs => (a == b) && startsWithChars as bs

/-- Character-list substring test: true when `needle` occurs contiguously
inside `hay`. -/
def containsChars (needle : List Char) : List Char → Bool
  | [] => startsWithChars needle []
  | c :: t => startsWithChars needle (c :: t) || containsChars needle t

/-- Python's substring containment `needle in hay` on strings. -/
def strContains (hay needle : String) : Bool :=
  containsChars needle.data hay.data

/-- Source lines 65-67: the constructor collects each signal's class name and
checks whether any of them contains the substring `EcorrKernelNoise`
(`np.any(['EcorrKernelNoise' in sc for sc in signal_names])`). -/
def hasKernelEcorr (signalClassNames : List String) : Bool :=
  signalClassNames.any (fun sc => strContains sc "EcorrKernelNoise")

/-- Constructor arguments of `PulsarBlockGibbs.__init__` that participate in
construction-time validation: the `hypersample` mode string, the
`ecorrsample` mode string, and the class names of the pta's signals. -/
structure InitCfg where
  hypersample : String
  ecorrsample : String
  signalClassNames : List String

/-- Construction-time validation performed by `PulsarBlockGibbs.__init__`
(source lines 42-68).  The only raise in the constructor's validation logic
is the kernel-ECORR `TypeError` of line 68; in particular the `hypersample`
and `ecorrsample` strings are stored without any check. -/
def pulsarBlockGibbsInitCheck (cfg : InitCfg) : Except String Unit :=
  if hasKernelEcorr cfg.signalClassNames then
    Except.error "Gibbs outlier analysis must use basis_ecorr, not kernel ecorr"
  else
    Except.ok ()

/-- Python's `int()` truncation toward zero applied to a rational. -/
def pyInt (q : ℚ) : ℤ :=
  if 0 ≤ q then ⌊q⌋ else ⌈q⌉

/-- Value of `np.max` on a nonempty list of integers (on the empty list the
numpy call raises; we return the head default, which no claim relies on). -/
def npMaxInt (l : List ℤ) : ℤ :=
  l.foldl max (l.headD 0)

/-- Source lines 370-371: after a tuning run of the white-noise block the
production thinning length is
`int(np.max([int(acor.acor(short_chain[100:, jj])[0]) for jj in range(len(wind))]))`.
The argument `taus` is the list of values returned by the external `acor`
estimator, one per white-noise parameter; each is truncated by `int()`, the
maximum is taken, and the outer `int()` is the identity on that integer. -/
def aclength_white (taus : List ℚ) : ℤ :=
  npMaxInt (taus.map pyInt)

/-- Python's `chain[ii, -1]`: the last entry of a chain row. -/
def pyLast (l : List ℚ) : ℚ :=
  l.getLastD 0

/-- Source line 697: the guard `np.all(xnew != self.chain[ii, -1])` deciding
whether the latent vector is redrawn at the end of an outer iteration.
`self.chain[ii, -1]` is the scalar last entry of chain row `ii`, so the
comparison broadcasts: the guard holds iff every entry of `xnew` differs
from that single scalar. -/
def redrawCond (xnew : List ℚ) (chainRowLast : ℚ) : Bool :=
  xnew.all (fun v => v != chainRowLast)

-- Helper lemmas for `aclength_white`.

theorem foldl_max_init_le (l : List ℤ) (i : ℤ) : i ≤ l.foldl max i := by
  induction l generalizing i with
  | nil => exact le_refl i
  | cons a t ih => exact le_trans (le_max_left i a) (ih (max i a))

theorem le_foldl_max_of_mem {l : List ℤ} {x : ℤ} (h : x ∈ l) (i : ℤ) :
    x ≤ l.foldl max i := by
  induction l generalizing i with
  | nil => cases h
  | cons a t ih =>
    rcases List.mem_cons.mp h with rfl | hx
    · exact le_trans (le_max_right i x) (foldl_max_init_le t (max i x))
    · exact ih hx (max i a)

theorem le_npMaxInt_of_mem {l : List ℤ} {x : ℤ} (h : x ∈ l) : x ≤ npMaxInt l := by
  unfold npMaxInt
  exact le_foldl_max_of_mem h (l.headD 0)

/-- C4 counterexample: with a single white-noise parameter whose external
autocorrelation estimate is 1/2, the stored thinning length is
`int(np.max([int(0.5)])) = 0`, which is not an integer ≥ 1.  The code never
clamps the truncated estimate to 1. -/
theorem aclength_white_can_be_zero :
    aclength_white [(1 : ℚ) / 2] = 0 ∧ ¬ (1 ≤ aclength_white [(1 : ℚ) / 2]) := by
  have h : aclength_white [(1 : ℚ) / 2] = 0 := by
    norm_num [aclength_white, npMaxInt, pyInt]
  exact ⟨h, by rw [h]; norm_num⟩

/-- C4 (amended): the stored thinning length `aclength_white` is the integer
maximum of the truncated estimator outputs; it is ≥ 1 whenever at least one
tuning-chain autocorrelation estimate is ≥ 1, but it is not clamped, so it
can be 0 when every estimate is below 1. -/
theorem aclength_white_ge_one_of_estimate_ge_one (taus : List ℚ)
    (h : ∃ t ∈ taus, 1 ≤ t) : 1 ≤ aclength_white taus := by
  obtain ⟨t, htmem, ht1⟩ := h
  have hnn : (0 : ℚ) ≤ t := le_trans (by norm_num) ht1
  have hfloor : (1 : ℤ) ≤ ⌊t⌋ := by
    rw [Int.le_floor]
    exact_mod_cast ht1
  have hpy : (1 : ℤ) ≤ pyInt t := by
    unfold pyInt
    rw [if_pos hnn]
    exact hfloor
  have hmem : pyInt t ∈ taus.map pyInt := List.mem_map_of_mem pyInt htmem
  exact le_trans hpy (le_npMaxInt_of_mem hmem)

/-- C4 witness: with estimator outputs `[3/2]` the hypothesis of the amended
claim holds and the stored thinning length is ≥ 1. -/
theorem aclength_white_ge_one_witness :
    (∃ t ∈ [(3 : ℚ) / 2], 1 ≤ t) ∧ 1 ≤ aclength_white [(3 : ℚ) / 2] := by
  refine ⟨⟨(3 : ℚ) / 2, by simp, by norm_num⟩, ?_⟩
  exact aclength_white_ge_one_of_estimate_ge_one [(3 : ℚ) / 2]
    ⟨(3 : ℚ) / 2, by simp, by norm_num⟩

/-- Entries of a list after a `List.set` at a different position are unchanged. -/
theorem getD_set_ne {α : Type*} (l : List α) (i j : ℕ) (v d : α) (h : i ≠ j) :
    (l.set i v).getD j d = l.getD j d := by
  simp [List.getD_eq_getElem?_getD, List.getElem?_set_ne h]

/-- Source lines 208-209 and 555-556: combine the squared latent coefficients of
consecutive cosine/sine pairs into one variance statistic per frequency,
`(tau[::2] + tau[1::2]) / 2`. -/
noncomputable def pairAvg : List ℝ → List ℝ
  | a :: b :: rest => ((a + b) / 2) :: pairAvg rest
  | _ => []

/-- Source line 216 (one frequency): the closed-form inverse-CDF draw
`rho_new = tau / ((tau / rhomax) - log(1 - u))` of the no-intrinsic-red-noise
branch of `update_gwrho_params`, where `u` is the uniform variate. -/
noncomputable def rhoDraw (tau rhomax u : ℝ) : ℝ :=
  tau / (tau / rhomax - Real.log (1 - u))

/-- Source line 215 (one frequency): the upper bound
`1 - exp(tau / rhomax - tau / rhomin)` of the uniform draw feeding `rhoDraw`. -/
noncomputable def etaUpper (tau rhomin rhomax : ℝ) : ℝ :=
  1 - Real.exp (tau / rhomax - tau / rhomin)

/-- Value of `np.linspace a b n` at each of its `n` points. -/
noncomputable def linspace (a b : ℝ) (n : ℕ) : List ℝ :=
  (List.range n).map (fun i => a + (b - a) * i / ((n : ℝ) - 1))

/-- Source line 228: the grid `10 ** np.linspace(log10 rhomin, log10 rhomax, 1000)`
of candidate rho values, log-uniform over the prior support. -/
noncomputable def rhoGrid (rhomin rhomax : ℝ) : List ℝ :=
  (linspace (Real.logb 10 rhomin) (Real.logb 10 rhomax) 1000).map
    (fun t => (10 : ℝ) ^ t)

/-- Pointwise value of `np.logaddexp`: `log (exp a + exp b)`. -/
noncomputable def logaddexp (a b : ℝ) : ℝ :=
  Real.log (Real.exp a + Real.exp b)

/-- Index of the first maximal entry of a list, the value of `np.argmax`. -/
noncomputable def argmaxIdx (l : List ℝ) : ℕ :=
  (l.enum.foldl (fun best p => if best.2 < p.2 then p else best) (0, l.headD 0)).1

/-- State of the sampler object read by `update_gwrho_params`: the
`hypersample` mode string, the current latent vector `self._b`, the basis
index set `self.gwid` of the GW process, the parameter index set returned by
`get_gwrho_param_indices`, the prior bounds `self.rhomin`/`self.rhomax`, and
whether an intrinsic red-noise signal is present (`self.red_sig is not None`). -/
structure RhoState where
  hypersample : String
  b : List ℝ
  gwid : List ℕ
  gwind : List ℕ
  rhomin : ℝ
  rhomax : ℝ
  hasRedSig : Bool

/-- Vectorized index assignment `xnew[inds] = vals` on a copy of the vector. -/
def npPut (xs : List ℝ) (inds : List ℕ) (vals : List ℝ) : List ℝ :=
  (inds.zip vals).foldl (fun acc p => acc.set p.1 p.2) xs

/-- Source lines 199-268, `update_gwrho_params(self, xs)`.  The random inputs
are passed as oracles: `eta` is the vector of uniform variates of line 215,
`irn` is the intrinsic red-noise variance vector returned by the external
`self.red_sig.get_phi` call of line 223, and `gum` gives the standard-Gumbel
perturbations of line 233.  In the `'conditional'` mode the function combines
latent coefficients into per-frequency statistics `tau`, draws new variances
either by the closed form (`red_sig is None`) or by the Gumbel-max trick on
the log-uniform grid, and writes their half-log10 values into the rho slots
of a copy of `xs`; in any other mode the source prints an error message and
returns the copy unchanged. -/
noncomputable def update_gwrho_params (st : RhoState) (eta irn : List ℝ)
    (gum : ℕ → ℕ → ℝ) (xs : List ℝ) : List ℝ :=
  if st.hypersample = "conditional" then
    let tau := pairAvg ((st.gwid.map (fun i => st.b.getD i 0)).map (fun v => v ^ 2))
    let rhonew :=
      if st.hasRedSig = false then
        (tau.zip eta).map (fun p => rhoDraw p.1 st.rhomax p.2)
      else
        let grid := rhoGrid st.rhomin st.rhomax
        (List.range tau.length).map (fun f =>
          let row := (List.range grid.length).map (fun j =>
            let lr := Real.log (tau.getD f 0) -
              logaddexp (Real.log (irn.getD f 0)) (Real.log (grid.getD j 0))
            lr - Real.exp lr + gum f j)
          grid.getD (argmaxIdx row) 0)
    npPut xs st.gwind (rhonew.map (fun r => 0.5 * Real.logb 10 r))
  else
    xs

/-- Random inputs of one single-parameter Metropolis step of
`update_white_params`: `pick` selects the block parameter
(`np.random.choice(wind)`), `step` is the Gaussian increment times the mixture
scale (`np.random.randn() * scale`), and `logu` is `log(np.random.rand())`. -/
structure MHMove where
  pick : ℕ
  step : ℝ
  logu : ℝ

/-- Source lines 344-363 (and identically 376-404): one single-parameter
Gaussian random-walk Metropolis step of the white-noise block.  The running
state is `(xnew, lnlike0, lnprior0)`; the proposal perturbs one block
parameter by `step * (0.05 * len(wind))` and is accepted when the
log-posterior difference exceeds `logu`. -/
noncomputable def whiteStep (lnlike lnprior : List ℝ → ℝ) (wind : List ℕ)
    (st : List ℝ × ℝ × ℝ) (m : MHMove) : List ℝ × ℝ × ℝ :=
  let par := wind.getD (m.pick % wind.length) 0
  let q := st.1.set par (st.1.getD par 0 + m.step * (0.05 * (wind.length : ℝ)))
  let lnlike1 := lnlike q
  let lnprior1 := lnprior q
  if (lnlike1 + lnprior1) - (st.2.1 + st.2.2) > m.logu then (q, lnlike1, lnprior1) else st

/-- Source lines 332-406, `update_white_params(self, xs, iters)`: the returned
parameter vector.  Both the tuning branch (`iters` set, `iters` steps) and the
production branch (`iters = None`, `aclength_white` steps) run the same
single-parameter Metropolis loop starting from `lnlike0, lnprior0` evaluated
at a copy of `xs`; `moves` carries the random draws of the respective number
of steps.  The tuning branch additionally stores covariance/thinning
artifacts on `self`, which do not affect the returned vector. -/
noncomputable def update_white_params (lnlike lnprior : List ℝ → ℝ) (wind : List ℕ)
    (moves : List MHMove) (xs : List ℝ) : List ℝ :=
  (moves.foldl (whiteStep lnlike lnprior wind) (xs, lnlike xs, lnprior xs)).1

theorem putFold_getD_of_ne (j : ℕ) (d : ℝ) :
    ∀ (ps : List (ℕ × ℝ)) (xs : List ℝ), (∀ p ∈ ps, p.1 ≠ j) →
      (ps.foldl (fun acc p => acc.set p.1 p.2) xs).getD j d = xs.getD j d := by
  intro ps
  induction ps with
  | nil => intro xs _; rfl
  | cons p t ih =>
    intro xs h
    rw [List.foldl_cons, ih (xs.set p.1 p.2) (fun q hq => h q (List.mem_cons_of_mem p hq))]
    exact getD_set_ne xs p.1 j p.2 d (h p (List.mem_cons_self p t))

theorem npPut_getD_of_not_mem (xs : List ℝ) (inds : List ℕ) (vals : List ℝ)
    (j : ℕ) (d : ℝ) (hj : j ∉ inds) : (npPut xs inds vals).getD j d = xs.getD j d := by
  unfold npPut
  exact putFold_getD_of_ne j d (inds.zip vals) xs
    (fun p hp hpj => hj (hpj ▸ (List.of_mem_zip hp).1))

theorem whiteStep_getD_of_not_mem (lnlike lnprior : List ℝ → ℝ) (wind : List ℕ)
    (hw : wind ≠ []) (st : List ℝ × ℝ × ℝ) (m : MHMove) (j : ℕ) (d : ℝ)
    (hj : j ∉ wind) : (whiteStep lnlike lnprior wind st m).1.getD j d = st.1.getD j d := by
  have hlen : 0 < wind.length := List.length_pos.mpr hw
  have hmod : m.pick % wind.length < wind.length := Nat.mod_lt _ hlen
  have hparmem : wind.getD (m.pick % wind.length) 0 ∈ wind := by
    rw [List.getD_eq_getElem wind 0 hmod]
    exact List.getElem_mem hmod
  have hpar : wind.getD (m.pick % wind.length) 0 ≠ j := fun h => hj (h ▸ hparmem)
  unfold whiteStep
  dsimp only
  split
  · exact getD_set_ne st.1 _ j _ d hpar
  · rfl

theorem whiteFold_getD_of_not_mem (lnlike lnprior : List ℝ → ℝ) (wind : List ℕ)
    (hw : wind ≠ []) (moves : List MHMove) (j : ℕ) (d : ℝ) (hj : j ∉ wind) :
    ∀ st : List ℝ × ℝ × ℝ,
      ((moves.foldl (whiteStep lnlike lnprior wind) st).1).getD j d = st.1.getD j d := by
  induction moves with
  | nil => intro st; rfl
  | cons m t ih =>
    intro st
    rw [List.foldl_cons, ih (whiteStep lnlike lnprior wind st m)]
    exact whiteStep_getD_of_not_mem lnlike lnprior wind hw st m j d hj

/-- C9: the white-noise and GW-rho block updates are pure functions of a copy
of their input (`xnew = xs.copy()` at source lines 337 and 204, so the passed
vector is never mutated), and every position of the returned vector outside
the block's own index set (`wind` from `get_efacequad_indices` for the white
block, `gwind` from `get_gwrho_param_indices` for the rho block) equals the
corresponding position of the input vector. -/
theorem block_updates_frame (lnlike lnprior : List ℝ → ℝ) (wind : List ℕ)
    (moves : List MHMove) (st : RhoState) (eta irn : List ℝ) (gum : ℕ → ℕ → ℝ)
    (xs : List ℝ) (j : ℕ) (d : ℝ) (hw : wind ≠ []) (hjw : j ∉ wind)
    (hjg : j ∉ st.gwind) :
    (update_white_params lnlike lnprior wind moves xs).getD j d = xs.getD j d ∧
    (update_gwrho_params st eta irn gum xs).getD j d = xs.getD j d := by
  constructor
  · unfold update_white_params
    exact whiteFold_getD_of_not_mem lnlike lnprior wind hw moves j d hjw _
  · unfold update_gwrho_params
    by_cases hc : st.hypersample = "conditional"
    · rw [if_pos hc]
      exact npPut_getD_of_not_mem xs st.gwind _ j d hjg
    · rw [if_neg hc]

/-- C9 witness: a concrete instantiation with one Metropolis move on the white
block `{0}` and rho block `{1}`; position 2 of a three-entry vector is outside
both blocks and is returned unchanged by both updates. -/
theorem block_updates_frame_witness :
    (([0] : List ℕ) ≠ []) ∧ (2 : ℕ) ∉ ([0] : List ℕ) ∧ (2 : ℕ) ∉ ([1] : List ℕ) ∧
    ((update_white_params (fun _ => 0) (fun _ => 0) [0] [⟨0, 1, 0⟩] [5, 6, 7]).getD 2 0 =
        ([5, 6, 7] : List ℝ).getD 2 0 ∧
      (update_gwrho_params ⟨"conditional", [1, 1], [0, 1], [1], 1, 2, false⟩ [1/2] []
          (fun _ _ => 0) [5, 6, 7]).getD 2 0 = ([5, 6, 7] : List ℝ).getD 2 0) := by
  refine ⟨by decide, by decide, by decide, ?_⟩
  exact block_updates_frame (fun _ => 0) (fun _ => 0) [0] [⟨0, 1, 0⟩]
    ⟨"conditional", [1, 1], [0, 1], [1], 1, 2, false⟩ [1/2] [] (fun _ _ => 0)
    [5, 6, 7] 2 0 (by decide) (by decide) (by decide)

/-- C3 counterexample: constructing the sampler with the non-conditional
hypersample mode `'mh'` (over a basis-ecorr-free signal list) raises nothing
at setup, and `update_gwrho_params` in that mode returns the parameter vector
unchanged — the GW-rho update executes as a no-op after printing an error. -/
theorem mh_hypersample_not_rejected :
    pulsarBlockGibbsInitCheck ⟨"mh", "mh", ["MeasurementNoise", "FourierBasisGP"]⟩ =
      Except.ok () ∧
    update_gwrho_params ⟨"mh", [1, 1], [0, 1], [0], 1, 2, false⟩ [1/2] []
      (fun _ _ => 0) [3, 4] = [3, 4] := by
  constructor
  · rfl
  · unfold update_gwrho_params
    rw [if_neg (by decide : ¬ (("mh" : String) = "conditional"))]

/-- C3 (amended): the constructor performs no validation of the `hypersample`
mode — with any mode string (and a signal list free of kernel ECORR) setup
succeeds — and for every mode other than `'conditional'` the GW-rho update
prints an error message and returns the parameter vector unchanged, a silent
no-op rather than a configuration failure. -/
theorem nonconditional_rho_mode_is_noop (mode es : String) (names : List String)
    (hn : hasKernelEcorr names = false) (hm : mode ≠ "conditional")
    (st : RhoState) (hst : st.hypersample = mode) (eta irn : List ℝ)
    (gum : ℕ → ℕ → ℝ) (xs : List ℝ) :
    pulsarBlockGibbsInitCheck ⟨mode, es, names⟩ = Except.ok () ∧
    update_gwrho_params st eta irn gum xs = xs := by
  constructor
  · unfold pulsarBlockGibbsInitCheck
    rw [hn]
    rfl
  · unfold update_gwrho_params
    rw [if_neg (by rw [hst]; exact hm)]

/-- C3 witness: the amended claim instantiated at mode `'mh'` with a concrete
sampler state. -/
theorem nonconditional_rho_mode_is_noop_witness :
    (hasKernelEcorr ["TimingModel", "MeasurementNoise"] = false ∧
      ("mh" : String) ≠ "conditional") ∧
    (pulsarBlockGibbsInitCheck ⟨"mh", "mh", ["TimingModel", "MeasurementNoise"]⟩ =
        Except.ok () ∧
      update_gwrho_params ⟨"mh", [1, 1], [0, 1], [0], 1, 2, true⟩ [] []
        (fun _ _ => 0) [3, 4] = [3, 4]) := by
  refine ⟨⟨by decide, by decide⟩, ?_⟩
  exact nonconditional_rho_mode_is_noop "mh" "mh" ["TimingModel", "MeasurementNoise"]
    (by decide) (by decide) ⟨"mh", [1, 1], [0, 1], [0], 1, 2, true⟩ rfl [] []
    (fun _ _ => 0) [3, 4]

/-- C5: in the no-intrinsic-red-noise branch of the conditional rho sampler,
for every frequency statistic `tau > 0`, bounds `0 < rhomin < rhomax`, and
uniform variate `u` in the open interval `(0, etaUpper tau rhomin rhomax)`,
the closed-form draw `rhoDraw tau rhomax u = tau / (tau/rhomax - log(1-u))`
lies in `[rhomin, rhomax]`. -/
theorem rhoDraw_mem_bounds (tau rhomin rhomax u : ℝ)
    (htau : 0 < tau) (hmin : 0 < rhomin) (hlt : rhomin < rhomax)
    (hu0 : 0 < u) (huU : u < etaUpper tau rhomin rhomax) :
    rhomin ≤ rhoDraw tau rhomax u ∧ rhoDraw tau rhomax u ≤ rhomax := by
  have hmax : 0 < rhomax := hmin.trans hlt
  have hexp : Real.exp (tau / rhomax - tau / rhomin) < 1 - u := by
    unfold etaUpper at huU
    linarith
  have h1u : 0 < 1 - u := lt_trans (Real.exp_pos _) hexp
  have hlog_lt : Real.log (1 - u) < 0 := Real.log_neg h1u (by linarith)
  have hlog_gt : tau / rhomax - tau / rhomin < Real.log (1 - u) :=
    (Real.lt_log_iff_exp_lt h1u).mpr hexp
  have hD : 0 < tau / rhomax - Real.log (1 - u) := by
    have : 0 < tau / rhomax := div_pos htau hmax
    linarith
  have hDlt : tau / rhomax - Real.log (1 - u) < tau / rhomin := by linarith
  constructor
  · unfold rhoDraw
    rw [le_div_iff₀ hD]
    have e1 : rhomin * (tau / rhomin) = tau := by field_simp
    have := mul_lt_mul_of_pos_left hDlt hmin
    linarith
  · unfold rhoDraw
    rw [div_le_iff₀ hD]
    have e2 : rhomax * (tau / rhomax) = tau := by field_simp
    have hge : tau / rhomax ≤ tau / rhomax - Real.log (1 - u) := by linarith
    have := mul_le_mul_of_nonneg_left hge (le_of_lt hmax)
    linarith
/-- C5 witness: with `tau = 1`, bounds `[1, 2]` and `u = 1/10` (which lies
below `etaUpper 1 1 2 = 1 - exp(-1/2)`), the draw lies in `[1, 2]`. -/
theorem rhoDraw_mem_bounds_witness :
    (0 < (1 : ℝ) ∧ 0 < (1 : ℝ) ∧ (1 : ℝ) < 2 ∧ 0 < (1/10 : ℝ) ∧
      (1/10 : ℝ) < etaUpper 1 1 2) ∧
    ((1 : ℝ) ≤ rhoDraw 1 2 (1/10) ∧ rhoDraw 1 2 (1/10) ≤ 2) := by
  have hexphalf : (3/2 : ℝ) ≤ Real.exp (1/2) := by
    have := Real.add_one_le_exp (1/2 : ℝ)
    linarith
  have hexpneg : Real.exp ((1 : ℝ)/2 - 1/1) < 9/10 := by
    have heq : ((1 : ℝ)/2 - 1/1) = -(1/2 : ℝ) := by norm_num
    rw [heq, Real.exp_neg]
    have hinv : (Real.exp (1/2 : ℝ))⁻¹ ≤ (3/2 : ℝ)⁻¹ := by
      apply inv_anti₀ (by norm_num) hexphalf
    have : ((3/2 : ℝ))⁻¹ = 2/3 := by norm_num
    linarith
  have hu : (1/10 : ℝ) < etaUpper 1 1 2 := by
    unfold etaUpper
    have : (1 : ℝ) / 2 - 1 / 1 = 1/2 - 1/1 := by norm_num
    linarith [hexpneg]
  refine ⟨⟨by norm_num, by norm_num, by norm_num, by norm_num, hu⟩, ?_⟩
  exact rhoDraw_mem_bounds 1 1 2 (1/10) (by norm_num) (by norm_num) (by norm_num)
    (by norm_num) hu

/-- Mutable loop state of `sample`: the current parameter vector `xnew` and
the current latent coefficient vector `self._b`. -/
structure GS where
  x : List ℚ
  b : List ℚ

/-- Static data of one `sample` run: the four block index sets (from
`get_efacequad_indices`, `get_ecorr_indices`, `get_red_param_indices`,
`get_gwrho_param_indices`) and the block-update calls of the loop body as
functions.  Each updater stands for the corresponding stochastic method with
its randomness fixed: `updWhiteTune`/`updWhite` for `update_white_params` with
`iters=1000` resp. `iters=None`, similarly `updRedTune`/`updRed` for
`update_red_params` (`iters=10000` resp. `None`), `updGw` for
`update_gwrho_params`, and `updB0`/`updB` for the two `update_b` call sites
(line 662 with the initial `xs`, line 698 with the updated vector).  The
production updaters take the iteration index, standing for the fresh random
draws of that iteration; updaters reading the latent vector receive the
current `b` as first vector argument.  (The internals of these block updates
are embedded separately over `ℝ` above.) -/
structure LoopCfg where
  whiteInds : List ℕ
  ecorrInds : List ℕ
  redInds : List ℕ
  gwInds : List ℕ
  updWhiteTune : List ℚ → List ℚ → List ℚ
  updWhite : ℕ → List ℚ → List ℚ → List ℚ
  updRedTune : List ℚ → List ℚ → List ℚ
  updRed : ℕ → List ℚ → List ℚ → List ℚ
  updGw : ℕ → List ℚ → List ℚ → List ℚ
  updB0 : List ℚ → List ℚ
  updB : ℕ → List ℚ → List ℚ

/-- Source lines 656-698, the body of one outer iteration `ii` of `sample`,
run after chain row `ii` has been recorded as `(s.x, s.b)`: on the first
iteration the latent vector is drawn from `update_b(xs)` with the original
argument `xs`; the caches `TNT`/`d` are cleared (no observable and in the
embedding); the white, (stubbed) ECORR, red and GW-rho blocks run in order,
each guarded by its index set being nonempty and using the tuning variant at
`ii = 0`; finally the latent vector is redrawn iff the guard
`np.all(xnew != self.chain[ii, -1])` of line 697 holds (see `redrawCond`). -/
def gibbsIter (cfg : LoopCfg) (xsInit : List ℚ) (ii : ℕ) (s : GS) : GS :=
  let b0 := if ii = 0 then cfg.updB0 xsInit else s.b
  let x1 := if cfg.whiteInds = [] then s.x
    else if ii = 0 then cfg.updWhiteTune b0 s.x else cfg.updWhite ii b0 s.x
  let x2 := if cfg.redInds = [] then x1
    else if ii = 0 then cfg.updRedTune b0 x1 else cfg.updRed ii b0 x1
  let x3 := if cfg.gwInds = [] then x2 else cfg.updGw ii b0 x2
  let b1 := if redrawCond x3 (pyLast s.x) then cfg.updB ii x3 else b0
  ⟨x3, b1⟩

/-- Source lines 656-710, the loop `for ii in tqdm(range(startLength, niter))`
with `fuel = niter - startLength` remaining iterations starting at index
`ii`.  Returns the recorded chain rows (each row `(chain[ii], bchain[ii])` is
written at the top of the body, lines 658-659, before any update of that
iteration), the trace of numeric snapshot file writes (lines 701, 709-710:
`np.save` of `chain.npy` and `bchain.npy` when `ii % 100 == 0 and ii > 0`),
and the final loop state. -/
def sampleAux (cfg : LoopCfg) (xsInit : List ℚ) :
    ℕ → ℕ → GS → List (List ℚ × List ℚ) × List (ℕ × String) × GS
  | 0, _, s => ([], [], s)
  | fuel + 1, ii, s =>
    let rest := sampleAux cfg xsInit fuel (ii + 1) (gibbsIter cfg xsInit ii s)
    ((s.x, s.b) :: rest.1,
      (if ii % 100 = 0 ∧ 0 < ii then [(ii, "chain.npy"), (ii, "bchain.npy")] else [])
        ++ rest.2.1,
      rest.2.2)

/-- The loop of a fresh (non-resume) `sample` call: all `niter` iterations
from index 0, starting from the initial parameter vector `xs` and the
latent vector `b0` held in `self._b` at entry. -/
def sampleFresh (cfg : LoopCfg) (xs b0 : List ℚ) (niter : ℕ) :=
  sampleAux cfg xs niter 0 ⟨xs, b0⟩

/-- Result of a `sample` call: the recorded chain (parameter row and latent
row per iteration) and the trace of numeric chain-snapshot writes. -/
structure SampleOut where
  chain : List (List ℚ × List ℚ)
  writes : List (ℕ × String)

/-- Source lines 620-710, `sample(self, xs, outdir, niter, resume)`.  The
output directory is modelled as the map `fs` from file name to stored array.
With `resume=True` (lines 634-653) the code calls `np.loadtxt` on
`chain.txt`, then on `bchain.txt` (a missing file makes `loadtxt` raise, here
an error value), takes the common minimum row count of the two arrays,
restores that prefix into the live buffers, and restarts the loop at
`startLength = minLength` from the parameter vector of the last restored row;
`self._b` is not restored and keeps its entry value `b0`.  Without resume the
whole loop runs from index 0.  The `np.savetxt` of the two parameter-name
text files (lines 625-626) is not a chain snapshot and is not traced. -/
def sample (cfg : LoopCfg) (fs : String → Option (List (List ℚ)))
    (xs b0 : List ℚ) (niter : ℕ) (resume : Bool) : Except String SampleOut :=
  if resume then
    match fs "chain.txt" with
    | none => Except.error "chain.txt not found"
    | some c =>
      match fs "bchain.txt" with
      | none => Except.error "bchain.txt not found"
      | some bc =>
        let m := min c.length bc.length
        let pre := (c.take m).zip (bc.take m)
        let xnew := (c.take m).getLastD []
        let out := sampleAux cfg xs (niter - m) m ⟨xnew, b0⟩
        Except.ok ⟨pre ++ out.1, out.2.1⟩
  else
    Except.ok ⟨(sampleFresh cfg xs b0 niter).1, (sampleFresh cfg xs b0 niter).2.1⟩

/-- State of the loop at the start of iteration `start + k`, obtained by
iterating the loop body `k` times from state `s` at iteration `start`. -/
def iterStates (cfg : LoopCfg) (xsInit : List ℚ) (start : ℕ) (s : GS) : ℕ → GS
  | 0 => s
  | k + 1 => gibbsIter cfg xsInit (start + k) (iterStates cfg xsInit start s k)

theorem iterStates_shift (cfg : LoopCfg) (xsInit : List ℚ) (start : ℕ) (s : GS)
    (k : ℕ) :
    iterStates cfg xsInit start s (k + 1) =
      iterStates cfg xsInit (start + 1) (gibbsIter cfg xsInit start s) k := by
  induction k with
  | zero => rfl
  | succ k ih =>
    show gibbsIter cfg xsInit (start + (k + 1)) (iterStates cfg xsInit start s (k + 1)) = _
    rw [ih]
    show _ = gibbsIter cfg xsInit (start + 1 + k)
      (iterStates cfg xsInit (start + 1) (gibbsIter cfg xsInit start s) k)
    congr 1
    omega

theorem sampleAux_rows_get (cfg : LoopCfg) (xsInit : List ℚ) :
    ∀ (fuel k start : ℕ) (s : GS), k < fuel →
      (sampleAux cfg xsInit fuel start s).1.get? k =
        some ((iterStates cfg xsInit start s k).x, (iterStates cfg xsInit start s k).b) := by
  intro fuel
  induction fuel with
  | zero => intro k start s hk; omega
  | succ fuel ih =>
    intro k start s hk
    cases k with
    | zero => rfl
    | succ k =>
      have h := ih k (start + 1) (gibbsIter cfg xsInit start s) (by omega)
      rw [iterStates_shift]
      simpa [sampleAux] using h

theorem sampleAux_writes_bound (cfg : LoopCfg) (xsInit : List ℚ) :
    ∀ (fuel start : ℕ) (s : GS) (p : ℕ × String),
      p ∈ (sampleAux cfg xsInit fuel start s).2.1 →
        start ≤ p.1 ∧ p.1 < start + fuel ∧ p.1 % 100 = 0 ∧ 0 < p.1 := by
  intro fuel
  induction fuel with
  | zero => intro start s p hp; simp [sampleAux] at hp
  | succ fuel ih =>
    intro start s p hp
    simp only [sampleAux, List.mem_append] at hp
    rcases hp with hp | hp
    · by_cases hc : start % 100 = 0 ∧ 0 < start
      · rw [if_pos hc] at hp
        rcases List.mem_cons.mp hp with rfl | hp
        · exact ⟨le_refl _, by omega, hc.1, hc.2⟩
        · rcases List.mem_cons.mp hp with rfl | hp
          · exact ⟨le_refl _, by omega, hc.1, hc.2⟩
          · cases hp
      · rw [if_neg hc] at hp
        cases hp
    · have h := ih (start + 1) (gibbsIter cfg xsInit start s) p hp
      exact ⟨by omega, by omega, h.2.2.1, h.2.2.2⟩

/-- C6: chain row `i` and bchain row `i` of a fresh run equal the sampler's
state as of the start of iteration `i` — they are written at the top of the
loop body (source lines 658-659), before the first-iteration latent draw, the
block samplers and the end-of-iteration latent redraw of that iteration. -/
theorem chain_rows_record_prestate (cfg : LoopCfg)
    (fs : String → Option (List (List ℚ))) (xs b0 : List ℚ) (n i : ℕ)
    (hi : i < n) :
    sample cfg fs xs b0 n false =
      Except.ok ⟨(sampleFresh cfg xs b0 n).1, (sampleFresh cfg xs b0 n).2.1⟩ ∧
    (sampleFresh cfg xs b0 n).1.get? i =
      some ((iterStates cfg xs 0 ⟨xs, b0⟩ i).x, (iterStates cfg xs 0 ⟨xs, b0⟩ i).b) :=
  ⟨rfl, sampleAux_rows_get cfg xs n i 0 ⟨xs, b0⟩ hi⟩

/-- Trivial loop configuration for concrete runs: no parameter blocks and
identity update oracles. -/
def trivCfg : LoopCfg where
  whiteInds := []
  ecorrInds := []
  redInds := []
  gwInds := []
  updWhiteTune := fun _ x => x
  updWhite := fun _ _ x => x
  updRedTune := fun _ x => x
  updRed := fun _ _ x => x
  updGw := fun _ _ x => x
  updB0 := fun x => x
  updB := fun _ x => x

/-- C6 witness: a fresh two-iteration run records chain row 1 as the state at
the start of iteration 1. -/
theorem chain_rows_record_prestate_witness :
    (1 : ℕ) < 2 ∧
    (sample trivCfg (fun _ => none) [1] [0] 2 false =
        Except.ok ⟨(sampleFresh trivCfg [1] [0] 2).1, (sampleFresh trivCfg [1] [0] 2).2.1⟩ ∧
      (sampleFresh trivCfg [1] [0] 2).1.get? 1 =
        some ((iterStates trivCfg [1] 0 ⟨[1], [0]⟩ 1).x,
          (iterStates trivCfg [1] 0 ⟨[1], [0]⟩ 1).b)) :=
  ⟨by omega, chain_rows_record_prestate trivCfg (fun _ => none) [1] [0] 2 1 (by omega)⟩

/-- C10: a fresh `sample` run writes the numeric chain and latent-chain
snapshot arrays only at iteration indices that are positive multiples of 100
(the guard `ii % 100 == 0 and ii > 0` of source line 701); consequently a run
with `niter ≤ 100` finishes without ever writing a snapshot. -/
theorem snapshots_only_at_positive_multiples (cfg : LoopCfg)
    (fs : String → Option (List (List ℚ))) (xs b0 : List ℚ) (n : ℕ) :
    (∀ p ∈ (sampleFresh cfg xs b0 n).2.1, ∃ k, 0 < k ∧ p.1 = 100 * k) ∧
    (n ≤ 100 → (sampleFresh cfg xs b0 n).2.1 = []) ∧
    sample cfg fs xs b0 n false =
      Except.ok ⟨(sampleFresh cfg xs b0 n).1, (sampleFresh cfg xs b0 n).2.1⟩ := by
  refine ⟨?_, ?_, rfl⟩
  · intro p hp
    have h := sampleAux_writes_bound cfg xs n 0 ⟨xs, b0⟩ p hp
    exact ⟨p.1 / 100, by omega, by omega⟩
  · intro hn
    rw [List.eq_nil_iff_forall_not_mem]
    intro p hp
    have h := sampleAux_writes_bound cfg xs n 0 ⟨xs, b0⟩ p hp
    omega

set_option maxRecDepth 4000 in
theorem sampleFresh_writes_101 :
    (sampleFresh trivCfg [1] [0] 101).2.1 = [(100, "chain.npy"), (100, "bchain.npy")] := by
  rfl

/-- C10 witness: a 101-iteration fresh run writes its snapshot at iteration
100 (a positive multiple of 100), and a 50-iteration run writes none. -/
theorem snapshots_only_at_positive_multiples_witness :
    ((100, "chain.npy") ∈ (sampleFresh trivCfg [1] [0] 101).2.1 ∧
      ∃ k, 0 < k ∧ ((100, "chain.npy") : ℕ × String).1 = 100 * k) ∧
    ((50 : ℕ) ≤ 100 ∧ (sampleFresh trivCfg [1] [0] 50).2.1 = []) := by
  have hmem : (100, "chain.npy") ∈ (sampleFresh trivCfg [1] [0] 101).2.1 := by
    rw [sampleFresh_writes_101]
    exact List.mem_cons_self _ _
  exact ⟨⟨hmem,
      (snapshots_only_at_positive_multiples trivCfg (fun _ => none) [1] [0] 101).1 _ hmem⟩,
    ⟨by omega,
      (snapshots_only_at_positive_multiples trivCfg (fun _ => none) [1] [0] 50).2.1 (by omega)⟩⟩

/-- Output-directory contents after the checkpointed fresh 101-iteration run
of `sampleFresh_writes_101`: exactly the two numeric snapshot files that
`sample` wrote with `np.save` (their stored contents standing in for the
saved prefixes), and no other file — in particular no `chain.txt` or
`bchain.txt`. -/
def fsAfterRun : String → Option (List (List ℚ)) := fun nm =>
  if nm = "chain.npy" then some [[1]]
  else if nm = "bchain.npy" then some [[0]] else none

/-- C1 (code-bug evaluation): the snapshot files a fresh checkpointed run
writes are `chain.npy` and `bchain.npy` (written by `np.save`, source lines
709-710), but `sample` with `resume=True` reads `chain.txt` and `bchain.txt`
(`np.loadtxt`, source lines 638-639).  Over a directory holding exactly the
files the run wrote, resuming fails on the missing `chain.txt` instead of
restoring the run — the files written are not the files read. -/
theorem snapshot_resume_file_mismatch :
    (sampleFresh trivCfg [1] [0] 101).2.1 = [(100, "chain.npy"), (100, "bchain.npy")] ∧
    fsAfterRun "chain.npy" = some [[1]] ∧
    fsAfterRun "bchain.npy" = some [[0]] ∧
    fsAfterRun "chain.txt" = none ∧
    fsAfterRun "bchain.txt" = none ∧
    sample trivCfg fsAfterRun [1] [0] 200 true = Except.error "chain.txt not found" :=
  ⟨sampleFresh_writes_101, rfl, rfl, rfl, rfl, rfl⟩

/-- Loop configuration exhibiting the broken redraw guard: one rho parameter
whose conditional draw moves the parameter vector from `[1, 2]` to `[2, 2]`,
and a latent redraw oracle that would return `[9]` if it were invoked. -/
def cfgC2 : LoopCfg where
  whiteInds := []
  ecorrInds := []
  redInds := []
  gwInds := [0]
  updWhiteTune := fun _ x => x
  updWhite := fun _ _ x => x
  updRedTune := fun _ x => x
  updRed := fun _ _ x => x
  updGw := fun _ _ _ => [2, 2]
  updB0 := fun x => x
  updB := fun _ _ => [9]

/-- C2 (code-bug evaluation): at iteration 1 with recorded chain row `[1, 2]`
the block updates change the parameter vector to `[2, 2]` — it differs from
the recorded row in position 0 — yet the latent vector is NOT redrawn: the
guard `np.all(xnew != self.chain[ii, -1])` compares every entry of `xnew`
against the scalar last entry `2` of the recorded row, and `xnew[1] = 2`
makes it false, so `b` stays `[5]` although `update_b` would have returned
`[9]`. -/
theorem redraw_skipped_despite_parameter_change :
    (gibbsIter cfgC2 [1, 2] 1 ⟨[1, 2], [5]⟩).x = [2, 2] ∧
    (gibbsIter cfgC2 [1, 2] 1 ⟨[1, 2], [5]⟩).b = [5] ∧
    ([2, 2] : List ℚ) ≠ [1, 2] ∧
    cfgC2.updB 1 [2, 2] = [9] ∧
    ([9] : List ℚ) ≠ [5] ∧
    redrawCond [2, 2] (pyLast [1, 2]) = false := by
  refine ⟨rfl, rfl, ?_, rfl, ?_, rfl⟩
  · intro h
    exact absurd (List.head_eq_of_cons_eq h) (by norm_num)
  · intro h
    exact absurd (List.head_eq_of_cons_eq h) (by norm_num)

/-- Dot product of two rational vectors. -/
def dotQ (a b : List ℚ) : ℚ :=
  ((a.zip b).map (fun p => p.1 * p.2)).sum

/-- Transpose of a rectangular rational matrix stored as a row list. -/
def transQ : List (List ℚ) → List (List ℚ)
  | [] => []
  | [r] => r.map (fun x => [x])
  | r :: rest => (r.zip (transQ rest)).map (fun p => p.1 :: p.2)

/-- Matrix-vector product `np.dot M v`. -/
def matVec (M : List (List ℚ)) (v : List ℚ) : List ℚ :=
  M.map (fun r => dotQ r v)

/-- Matrix-matrix product `np.dot A B`. -/
def matMul (A B : List (List ℚ)) : List (List ℚ) :=
  A.map (fun r => (transQ B).map (fun c => dotQ r c))

/-- Elementwise matrix sum. -/
def matAdd (A B : List (List ℚ)) : List (List ℚ) :=
  (A.zip B).map (fun p => (p.1.zip p.2).map (fun q => q.1 + q.2))

/-- Row-wise division `T / Nvec[:, None]`. -/
def rowsDivN (T : List (List ℚ)) (Nvec : List ℚ) : List (List ℚ) :=
  (T.zip Nvec).map (fun p => p.1.map (fun x => x / p.2))

/-- Elementwise vector division `r / Nvec`. -/
def vecDiv (r Nvec : List ℚ) : List ℚ :=
  (r.zip Nvec).map (fun p => p.1 / p.2)

/-- Square diagonal matrix `np.diag v`. -/
def diagM (v : List ℚ) : List (List ℚ) :=
  (List.range v.length).map (fun i =>
    (List.range v.length).map (fun j => if i = j then v.getD i 0 else 0))

/-- Model of `sl.cho_factor(Sigma)` followed by `sl.cho_solve(cf, d)` (source
lines 601-602): symmetric pivoting elimination.  At each step the leading
pivot `p` must be positive — LAPACK's `potrf` fails exactly when it meets a
nonpositive pivot, i.e. when a leading principal minor of `Sigma` is not
positive — else the Schur complement and the reduced right-hand side are
formed and eliminated recursively.  On success returns the pivot list (whose
logs sum to `log det Sigma`, since the Cholesky diagonal is the pivots' square
roots and the source takes `sum(2*log(diag(cf[0])))`) together with the
solution of `Sigma x = d`. -/
def cholSolve : List (List ℚ) → List ℚ → Option (List ℚ × List ℚ)
  | [], _ => some ([], [])
  | row :: rest, d =>
    let p := row.headD 0
    if p ≤ 0 then none
    else
      let w := row.tail
      let d0 := d.headD 0
      let wcol := rest.map (fun r => r.headD 0)
      let S := (rest.zip wcol).map
        (fun rw => ((rw.1.tail).zip w).map (fun kv => kv.1 - rw.2 * kv.2 / p))
      let dr2 := ((d.tail).zip wcol).map (fun dw => dw.1 - dw.2 * d0 / p)
      match cholSolve S dr2 with
      | none => none
      | some pe => some (p :: pe.1, ((d0 - dotQ w pe.2) / p) :: pe.2)
termination_by m _ => m.length
decreasing_by
  simp only [List.length_map, List.length_zip, List.length_cons]
  omega

/-- Source lines 584-585 and 598: the precision matrix
`Sigma = np.dot(T.T, T / Nvec[:, None]) + np.diag(phiinv)`. -/
def fullmargSigma (Nvec phiinv : List ℚ) (T : List (List ℚ)) : List (List ℚ) :=
  matAdd (matMul (transQ T) (rowsDivN T Nvec)) (diagM phiinv)

/-- Source line 586: the projected data vector
`d = np.dot(T.T, residuals / Nvec)`. -/
def fullmargD (Nvec r : List ℚ) (T : List (List ℚ)) : List ℚ :=
  matVec (transQ T) (vecDiv r Nvec)

/-- Source lines 569-610, `get_lnlikelihood_fullmarg(self, xs)`, as a total
function into the extended reals.  The external pta calls supply the inputs:
`Nvec` is the noise diagonal, `r` the residuals, `phiinv` and `logdetPhi` the
output of `get_phiinv(..., logdet=True)`, `T` the basis matrix (the cached
`TNT`/`d` equal their recomputation from these).  The white part
`-0.5 * (sum(log N) + sum(r^2 / N))` is accumulated first; then the Cholesky
factorization of `Sigma` is attempted inside a try/except: when it fails
(`Sigma` not positive-definite) the function returns `-np.inf`, here `⊥`,
without raising — the total Lean type has no exceptional outcome — and
otherwise adds `0.5 * (d . Sigma⁻¹ d - log det Sigma - logdet_phi)`. -/
noncomputable def get_lnlikelihood_fullmarg (Nvec r phiinv : List ℚ)
    (logdetPhi : ℝ) (T : List (List ℚ)) : EReal :=
  let logdetN : ℝ := (Nvec.map (fun v => Real.log (v : ℝ))).sum
  let rNr : ℚ := ((r.zip Nvec).map (fun p => p.1 ^ 2 / p.2)).sum
  let part1 : ℝ := -(1/2 : ℝ) * (logdetN + (rNr : ℝ))
  let d := fullmargD Nvec r T
  match cholSolve (fullmargSigma Nvec phiinv T) d with
  | none => (⊥ : EReal)
  | some pe =>
    let logdetSigma : ℝ := (pe.1.map (fun p => Real.log (p : ℝ))).sum
    (((part1 + (1/2 : ℝ) * (((dotQ d pe.2 : ℚ) : ℝ) - logdetSigma - logdetPhi)) : ℝ) : EReal)

/-- C7: whenever the Cholesky factorization of
`Sigma = T'N⁻¹T + diag(phiinv)` fails because `Sigma` is not
positive-definite, `get_lnlikelihood_fullmarg` evaluates to negative infinity;
being a total function it raises nothing to its caller, so the `⊥` value is
what a Metropolis caller sees and always rejects. -/
theorem fullmarg_neg_infinity_on_chol_failure (Nvec r phiinv : List ℚ)
    (logdetPhi : ℝ) (T : List (List ℚ))
    (h : cholSolve (fullmargSigma Nvec phiinv T) (fullmargD Nvec r T) = none) :
    get_lnlikelihood_fullmarg Nvec r phiinv logdetPhi T = ⊥ := by
  unfold get_lnlikelihood_fullmarg
  dsimp only
  rw [h]

/-- C7 witness: with `Nvec = [1]`, `r = [1]`, `T = [[1]]` and `phiinv = [-2]`
the precision matrix is `[[-1]]`, its Cholesky pivot is nonpositive, and the
full-marginal log-likelihood is negative infinity. -/
theorem fullmarg_neg_infinity_witness :
    cholSolve (fullmargSigma [1] [-2] [[1]]) (fullmargD [1] [1] [[1]]) = none ∧
    get_lnlikelihood_fullmarg [1] [1] [-2] 0 [[1]] = ⊥ := by
  have h : cholSolve (fullmargSigma [1] [-2] [[1]]) (fullmargD [1] [1] [[1]]) = none := by
    have hs : fullmargSigma [1] [-2] [[1]] = [[-1]] := by
      norm_num [fullmargSigma, matMul, matAdd, rowsDivN, transQ, diagM, dotQ,
        List.range_succ, List.range_zero]
    rw [hs, cholSolve]
    norm_num
  exact ⟨h, fullmarg_neg_infinity_on_chol_failure [1] [1] [-2] 0 [[1]] h⟩

/-- Composition of construction and sampling: `sample` is a method of the
constructed object, so it can only run when `__init__` returned normally;
a constructor `TypeError` therefore aborts before any sampling begins. -/
def constructAndSample (icfg : InitCfg) (cfg : LoopCfg)
    (fs : String → Option (List (List ℚ))) (xs b0 : List ℚ) (niter : ℕ)
    (resume : Bool) : Except String SampleOut :=
  match pulsarBlockGibbsInitCheck icfg with
  | Except.error e => Except.error e
  | Except.ok _ => sample cfg fs xs b0 niter resume

/-- C8: constructing `PulsarBlockGibbs` over a model whose signal list
contains a kernel-based (non-basis) ECORR class raises the `TypeError` of
source line 68 at construction: the combined construct-then-sample run aborts
with that error and no sampling output is produced. -/
theorem kernel_ecorr_rejected_before_sampling (icfg : InitCfg)
    (h : hasKernelEcorr icfg.signalClassNames = true) (cfg : LoopCfg)
    (fs : String → Option (List (List ℚ))) (xs b0 : List ℚ) (niter : ℕ)
    (resume : Bool) :
    constructAndSample icfg cfg fs xs b0 niter resume =
      Except.error "Gibbs outlier analysis must use basis_ecorr, not kernel ecorr" := by
  simp [constructAndSample, pulsarBlockGibbsInitCheck, h]

/-- C8 witness: a signal list containing the class name `EcorrKernelNoise`
makes the construct-then-sample run abort with the configuration error. -/
theorem kernel_ecorr_rejected_witness :
    hasKernelEcorr ["MeasurementNoise", "EcorrKernelNoise"] = true ∧
    constructAndSample ⟨"conditional", "mh", ["MeasurementNoise", "EcorrKernelNoise"]⟩
        trivCfg (fun _ => none) [1] [0] 10 false =
      Except.error "Gibbs outlier analysis must use basis_ecorr, not kernel ecorr" :=
  ⟨rfl, kernel_ecorr_rejected_before_sampling
    ⟨"conditional", "mh", ["MeasurementNoise", "EcorrKernelNoise"]⟩ rfl
    trivCfg (fun _ => none) [1] [0] 10 false⟩
